import Mathlib

/-!
Verification of the binary expression tree converter
(`src/binary_expression_tree.py`).

The development shallowly embeds the Python source:

* text is modelled as `List Char`;
* the generator `get_symbols` is modelled as a left fold `tokStep` over the
  characters, producing the finite list of yielded symbols (paired with the
  index of their first character, mirroring the `indices=True` mode; the
  `indices=False` mode yields the same symbols without indices and is
  modelled by projecting the first components);
* Python's `str.isnumeric` is modelled by `Char.isDigit` (they agree on all
  characters appearing in this development; `isnumeric` additionally accepts
  some non-ASCII Unicode numerals);
* the class `Node` becomes an inductive with optional children, and
  `BinaryExpressionTree` a structure holding the root node;
* fallible code (Python `list.pop` raising `IndexError`, and the
  `None + 1` `TypeError` reachable in `from_infix`) returns `Except Err`;
* the recursion of `from_infix` on string slices is driven by a fuel
  parameter; the top level supplies `length + 1` fuel, which is always
  sufficient (each recursive call slices off at least one character).

Because several Python identifiers (`from_infix`, `get_postfix`, ...) end in
words this development cannot use as name suffixes, the Lean names use the
scheme `infixBuild` / `postfixBuild` / `Node.infixRender` /
`Node.postfixRender` for `from_infix` / `from_postfix` / `get_infix` /
`get_postfix` respectively.
-/

set_option maxHeartbeats 4000000
set_option linter.unusedVariables false

/-- Errors of the embedded code.  `stackUnderflow` models Python's
`IndexError` raised by `list.pop` on an empty list; `malformed` models the
`TypeError` raised by `from_infix` when `lowest_operator_index` is `None`
and no operand symbol exists; `fuelExhausted` is an artifact of the fuel
encoding of `from_infix` and is never produced at the fuel budget the
top-level wrapper supplies. -/
inductive Err where
  | stackUnderflow
  | malformed
  | fuelExhausted
deriving DecidableEq

/-- State of the `get_symbols` scan: symbols emitted so far, the pending
numeric buffer (`symbol` in the source), the recorded start index of the
pending buffer (`symbol_index`), and the current character position. -/
structure TokState where
  out : List (List Char × Nat)
  symbol : List Char
  symbol_index : Nat
  pos : Nat
deriving DecidableEq

/-- One iteration of the `for i, char in enumerate(text)` loop of
`get_symbols`: a numeric character is appended to the pending buffer;
any other character first flushes the pending buffer, is emitted itself
unless it is a space, and resets `symbol_index` to the next position. -/
def tokStep (st : TokState) (c : Char) : TokState :=
  if c.isDigit then
    ⟨st.out, st.symbol ++ [c], st.symbol_index, st.pos + 1⟩
  else
    ⟨st.out ++ (if st.symbol ≠ [] then [(st.symbol, st.symbol_index)] else [])
            ++ (if c ≠ ' ' then [([c], st.pos)] else []),
     [], st.pos + 1, st.pos + 1⟩

/-- `get_symbols(text, indices=True)`: the list of symbols yielded together
with the index of each symbol's first character.  After the loop a pending
numeric buffer is flushed as the final symbol. -/
def get_symbols_idx (text : List Char) : List (List Char × Nat) :=
  let st := text.foldl tokStep ⟨[], [], 0, 0⟩
  st.out ++ (if st.symbol ≠ [] then [(st.symbol, st.symbol_index)] else [])

/-- `get_symbols(text)` (the `indices=False` mode): the same symbols in the
same order, without the indices. -/
def get_symbols (text : List Char) : List (List Char) :=
  (get_symbols_idx text).map Prod.fst

/-- The class `Node`: `data` plus two optional child pointers. -/
inductive Node where
  | mk (data : List Char) (left : Option Node) (right : Option Node)

/-- `BinaryExpressionTree`: wraps a root node. -/
structure BinaryExpressionTree where
  root : Node

/-- `BinaryExpressionTree.OPERATORS = ['/', '*', '+', '-']`. -/
def OPERATORS : List (List Char) := [['/'], ['*'], ['+'], ['-']]

/-- The body of the `for symbol in get_symbols(text)` loop of
`from_postfix`: an operator pops the right child then the left child
(popping an empty stack raises) and pushes the combined node; any other
symbol is pushed as a childless node. -/
def pushSymbol (stack : List Node) (symbol : List Char) : Except Err (List Node) :=
  if symbol ∈ OPERATORS then
    match stack with
    | right :: left :: rest => .ok (Node.mk symbol (some left) (some right) :: rest)
    | _ => .error .stackUnderflow
  else
    .ok (Node.mk symbol none none :: stack)

/-- The whole `from_postfix` loop, threading the stack through
`pushSymbol` and propagating the first failure. -/
def postfixRun : List (List Char) → List Node → Except Err (List Node)
  | [], stack => .ok stack
  | s :: rest, stack =>
    match pushSymbol stack s with
    | .ok stack' => postfixRun rest stack'
    | .error e => .error e

/-- `BinaryExpressionTree.from_postfix`: run the stack loop over the
symbols, then `return BinaryExpressionTree(stack.pop())` — the final pop
takes the top of the stack (raising on an empty stack) and any further
stack elements are silently discarded. -/
def postfixBuild (text : List Char) : Except Err BinaryExpressionTree :=
  match postfixRun (get_symbols text) [] with
  | .ok (top :: _) => .ok ⟨top⟩
  | .ok [] => .error .stackUnderflow
  | .error e => .error e

/-- The four scan variables of `from_infix`'s operator search:
`lowest_operator` (an index into `OPERATORS`, `-1` initially),
`lowest_operator_index` (character index of the chosen operator),
`brackets_level`, and `lowest_operator_brackets_level` (`-1` initially). -/
structure ScanState where
  lowest_operator : Int
  lowest_operator_index : Option Nat
  brackets_level : Int
  lowest_operator_brackets_level : Int
deriving DecidableEq

def initScan : ScanState := ⟨-1, none, 0, -1⟩

/-- The body of the `for symbol, i in get_symbols(text, indices=True)` loop
of `from_infix`: parentheses adjust `brackets_level`; otherwise, when no
candidate exists yet or the current level is not deeper than the
candidate's, an operator replaces the candidate if it is in fewer brackets
or its `OPERATORS` index is at least the candidate's. -/
def scanStep (st : ScanState) (p : List Char × Nat) : ScanState :=
  if p.1 = ['('] then
    { st with brackets_level := st.brackets_level + 1 }
  else if p.1 = [')'] then
    { st with brackets_level := st.brackets_level - 1 }
  else if st.lowest_operator_brackets_level = -1 ∨
          st.brackets_level ≤ st.lowest_operator_brackets_level then
    if p.1 ∈ OPERATORS then
      if st.brackets_level < st.lowest_operator_brackets_level ∨
         (OPERATORS.indexOf p.1 : Int) ≥ st.lowest_operator then
        ⟨OPERATORS.indexOf p.1, some p.2, st.brackets_level, st.brackets_level⟩
      else st
    else st
  else st

/-- The completed operator search of `from_infix` over a given text. -/
def findLowest (text : List Char) : ScanState :=
  (get_symbols_idx text).foldl scanStep initScan

/-- Python's substring test `symbol in "()"`, used by the single-operand
fallback of `from_infix`: true exactly for the substrings of `"()"`. -/
def inParens (s : List Char) : Bool :=
  decide (s = [] ∨ s = ['('] ∨ s = [')'] ∨ s = ['(', ')'])

/-- `BinaryExpressionTree.from_infix`, with a fuel parameter driving the
recursion on text slices.  With no operator candidate, the first symbol
that is not a parenthesis becomes a childless node (if there is none the
source raises a `TypeError` at `lowest_operator_index + 1`, modelled by
`Err.malformed`).  Otherwise the text is split around the chosen operator
index and both slices are built recursively. -/
def infixBuildFuel : Nat → List Char → Except Err BinaryExpressionTree
  | 0, _ => .error .fuelExhausted
  | fuel + 1, text =>
    match (findLowest text).lowest_operator_index with
    | none =>
      match (get_symbols text).find? (fun s => ! inParens s) with
      | some sym => .ok ⟨Node.mk sym none none⟩
      | none => .error .malformed
    | some i =>
      match infixBuildFuel fuel (text.take i) with
      | .error e => .error e
      | .ok lt =>
        match infixBuildFuel fuel (text.drop (i + 1)) with
        | .error e => .error e
        | .ok rt =>
          .ok ⟨Node.mk (OPERATORS.getD (findLowest text).lowest_operator.toNat [])
                (some lt.root) (some rt.root)⟩

/-- `BinaryExpressionTree.from_infix`: the fuel `text.length + 1` always
suffices because every recursive call receives a strictly shorter slice. -/
def infixBuild (text : List Char) : Except Err BinaryExpressionTree :=
  infixBuildFuel (text.length + 1) text

/-- `BinaryExpressionTree.get_postfix` on a node: left rendering (followed
by a space) if a left child exists, then likewise for the right child, then
the node's own data. -/
def Node.postfixRender : Node → List Char
  | .mk d none none => d
  | .mk d (some l) none => l.postfixRender ++ [' '] ++ d
  | .mk d none (some r) => r.postfixRender ++ [' '] ++ d
  | .mk d (some l) (some r) => l.postfixRender ++ [' '] ++ (r.postfixRender ++ [' ']) ++ d

/-- `BinaryExpressionTree.get_infix` on a node: left rendering and a space
if a left child exists, the node's data, a space and the right rendering if
a right child exists; wrapped in parentheses when any child exists. -/
def Node.infixRender : Node → List Char
  | .mk d none none => d
  | .mk d (some l) none => '(' :: (l.infixRender ++ [' '] ++ d) ++ [')']
  | .mk d none (some r) => '(' :: (d ++ ' ' :: r.infixRender) ++ [')']
  | .mk d (some l) (some r) => '(' :: (l.infixRender ++ [' '] ++ d ++ ' ' :: r.infixRender) ++ [')']

/-! ## Specification-side descriptions used by the round-trip proof

The following definitions do not model source code; they describe the
token stream and scan outcome of a rendered tree, and are related to the
embedded functions by the lemmas below. -/

/-- The pending-buffer flush of the tokenizer state. -/
def emitPending (st : TokState) : List (List Char × Nat) :=
  if st.symbol ≠ [] then [(st.symbol, st.symbol_index)] else []

/-- Tokens of a run of non-digit characters starting at position `p`:
every character except the space becomes its own symbol. -/
def charToks : List Char → Nat → List (List Char × Nat)
  | [], _ => []
  | c :: cs, p => (if c = ' ' then [] else [([c], p)]) ++ charToks cs (p + 1)

/-- The indexed token list of a rendered tree placed at offset `p`. -/
def infixToks : Node → Nat → List (List Char × Nat)
  | .mk d none none, p => [(d, p)]
  | .mk d (some l) (some r), p =>
      (['('], p) :: (infixToks l (p + 1) ++
        ((d, p + 1 + l.infixRender.length + 1) ::
          (infixToks r (p + 1 + l.infixRender.length + 1 + 1 + 1) ++
            [([')'], p + 1 + l.infixRender.length + 1 + 1 + 1 + r.infixRender.length)])))
  | .mk _ (some _) none, _ => []
  | .mk _ none (some _), _ => []

/-- The tokenizer state reached after scanning a rendered tree from a
clean state `st`: a digit leaf stays pending in the buffer, anything else
has been emitted completely. -/
def afterTok (st : TokState) (n : Node) : TokState :=
  match n with
  | .mk d none none =>
    if d.all Char.isDigit then ⟨st.out, d, st.pos, st.pos + d.length⟩
    else ⟨st.out ++ [(d, st.pos)], [], st.pos + 1, st.pos + 1⟩
  | n => ⟨st.out ++ infixToks n st.pos, [], st.pos + n.infixRender.length,
          st.pos + n.infixRender.length⟩

/-- The scan state after the operator search runs over the tokens of a
rendered tree, starting with no candidate at bracket level `m`: a leaf
leaves the state unchanged, an inner tree records its root operator. -/
def scanResult (n : Node) (m : Int) (p : Nat) : ScanState :=
  match n with
  | .mk _ none none => ⟨-1, none, m, -1⟩
  | .mk d (some l) _ =>
      ⟨(OPERATORS.indexOf d : Int), some (p + 1 + l.infixRender.length + 1), m, m + 1⟩
  | .mk _ none (some _) => ⟨-1, none, m, -1⟩

/-! ## Basic lemmas about the postfix builder -/

/-- Running the postfix stack loop over a concatenation runs the first part
and, on success, continues with the second from the reached stack. -/
theorem postfixRun_append (xs ys : List (List Char)) (st : List Node) :
    postfixRun (xs ++ ys) st =
      match postfixRun xs st with
      | .ok st' => postfixRun ys st'
      | .error e => .error e := by
  induction xs generalizing st with
  | nil => simp [postfixRun]
  | cons s rest ih =>
    simp only [List.cons_append, postfixRun]
    cases pushSymbol st s with
    | ok st' => exact ih st'
    | error e => rfl

/-- An operator symbol fails on a stack with fewer than two nodes. -/
theorem pushSymbol_underflow (stack : List Node) (s : List Char)
    (hop : s ∈ OPERATORS) (hlen : stack.length < 2) :
    pushSymbol stack s = .error .stackUnderflow := by
  unfold pushSymbol
  rw [if_pos hop]
  match stack with
  | [] => rfl
  | [x] => rfl
  | x :: y :: rest => exact absurd hlen (by simp only [List.length_cons]; omega)

/-! ## Shape of the tokenizer's output -/

/-- Every symbol the tokenizer yields is either a nonempty run of digit
characters or a single non-digit, non-space character. -/
def symShape (s : List Char) : Prop :=
  (s ≠ [] ∧ ∀ ch ∈ s, ch.isDigit = true) ∨
  (∃ ch, s = [ch] ∧ ch.isDigit = false ∧ ch ≠ ' ')

theorem tokShape_foldl (cs : List Char) (st : TokState)
    (hout : ∀ p ∈ st.out, symShape p.1)
    (hbuf : ∀ ch ∈ st.symbol, ch.isDigit = true) :
    (∀ p ∈ (cs.foldl tokStep st).out, symShape p.1) ∧
    (∀ ch ∈ (cs.foldl tokStep st).symbol, ch.isDigit = true) := by
  induction cs generalizing st with
  | nil => exact ⟨hout, hbuf⟩
  | cons c rest ih =>
    simp only [List.foldl_cons]
    by_cases hc : c.isDigit
    · refine ih _ ?_ ?_
      · intro p hp
        unfold tokStep at hp
        rw [if_pos hc] at hp
        exact hout p hp
      · intro ch hch
        unfold tokStep at hch
        rw [if_pos hc] at hch
        simp only at hch
        rcases List.mem_append.1 hch with h | h
        · exact hbuf ch h
        · rw [List.mem_singleton.1 h]; exact hc
    · refine ih _ ?_ ?_
      · intro p hp
        unfold tokStep at hp
        rw [if_neg hc] at hp
        simp only at hp
        rcases List.mem_append.1 hp with hp' | hp'
        · rcases List.mem_append.1 hp' with hp'' | hp''
          · exact hout p hp''
          · by_cases hs : st.symbol ≠ []
            · rw [if_pos hs] at hp''
              rw [List.mem_singleton.1 hp'']
              exact Or.inl ⟨hs, hbuf⟩
            · rw [if_neg hs] at hp''
              exact absurd hp'' (List.not_mem_nil p)
        · by_cases hsp : c ≠ ' '
          · rw [if_pos hsp] at hp'
            rw [List.mem_singleton.1 hp']
            exact Or.inr ⟨c, rfl, by simpa using hc, hsp⟩
          · rw [if_neg hsp] at hp'
            exact absurd hp' (List.not_mem_nil p)
      · intro ch hch
        unfold tokStep at hch
        rw [if_neg hc] at hch
        exact absurd hch (List.not_mem_nil ch)

/-- Shape of every indexed symbol of a text. -/
theorem symShape_of_mem (text : List Char) (p : List Char × Nat)
    (hp : p ∈ get_symbols_idx text) : symShape p.1 := by
  have h := tokShape_foldl text ⟨[], [], 0, 0⟩ (by intro q hq; cases hq)
    (by intro ch hch; cases hch)
  unfold get_symbols_idx at hp
  simp only at hp
  rcases List.mem_append.1 hp with h1 | h1
  · exact h.1 p h1
  · by_cases hs : (text.foldl tokStep ⟨[], [], 0, 0⟩).symbol ≠ []
    · rw [if_pos hs] at h1
      rw [List.mem_singleton.1 h1]
      exact Or.inl ⟨hs, h.2⟩
    · rw [if_neg hs] at h1
      exact absurd h1 (List.not_mem_nil p)

/-- Shape of every symbol of a text (no-indices mode). -/
theorem symShape_of_mem_syms (text : List Char) (s : List Char)
    (hs : s ∈ get_symbols text) : symShape s := by
  rcases List.mem_map.1 hs with ⟨p, hp, hps⟩
  rw [← hps]
  exact symShape_of_mem text p hp

/-! ## Scan-state invariants of the infix operator search -/

/-- An operator symbol is not a parenthesis token. -/
theorem op_ne_paren (s : List Char) (h : s ∈ OPERATORS) :
    s ≠ ['('] ∧ s ≠ [')'] := by
  simp only [OPERATORS, List.mem_cons, List.not_mem_nil, or_false] at h
  rcases h with rfl | rfl | rfl | rfl <;> exact ⟨by decide, by decide⟩

/-- The index of an operator in the four-element `OPERATORS` list. -/
theorem opIndex_lt4 (s : List Char) (h : s ∈ OPERATORS) :
    OPERATORS.indexOf s < 4 := by
  simp only [OPERATORS, List.mem_cons, List.not_mem_nil, or_false] at h
  rcases h with rfl | rfl | rfl | rfl <;> decide

/-- A nonempty all-digit symbol is not an operator. -/
theorem digits_not_op (d : List Char) (hne : d ≠ [])
    (hdig : ∀ ch ∈ d, ch.isDigit = true) : d ∉ OPERATORS := by
  intro hmem
  simp only [OPERATORS, List.mem_cons, List.not_mem_nil, or_false] at hmem
  rcases hmem with rfl | rfl | rfl | rfl <;>
    exact absurd (hdig _ (List.mem_singleton_self _)) (by decide)

/-- `getD` at an index below 4 lands in `OPERATORS`. -/
theorem getD_mem_OPERATORS (k : Nat) (hk : k < 4) :
    OPERATORS.getD k [] ∈ OPERATORS := by
  interval_cases k <;> decide

/-- Exhaustive description of one scan step: it bumps the bracket level,
drops it, keeps the state, or records the current symbol (an operator) as
the new candidate. -/
theorem scanStep_cases (st : ScanState) (p : List Char × Nat) :
    scanStep st p = { st with brackets_level := st.brackets_level + 1 } ∨
    scanStep st p = { st with brackets_level := st.brackets_level - 1 } ∨
    scanStep st p = st ∨
    (p.1 ∈ OPERATORS ∧ scanStep st p =
      ⟨OPERATORS.indexOf p.1, some p.2, st.brackets_level, st.brackets_level⟩) := by
  unfold scanStep
  by_cases h1 : p.1 = ['(']
  · rw [if_pos h1]; exact Or.inl rfl
  · rw [if_neg h1]
    by_cases h2 : p.1 = [')']
    · rw [if_pos h2]; exact Or.inr (Or.inl rfl)
    · rw [if_neg h2]
      by_cases h3 : st.lowest_operator_brackets_level = -1 ∨
          st.brackets_level ≤ st.lowest_operator_brackets_level
      · rw [if_pos h3]
        by_cases h4 : p.1 ∈ OPERATORS
        · rw [if_pos h4]
          by_cases h5 : st.brackets_level < st.lowest_operator_brackets_level ∨
              (OPERATORS.indexOf p.1 : Int) ≥ st.lowest_operator
          · rw [if_pos h5]; exact Or.inr (Or.inr (Or.inr ⟨h4, rfl⟩))
          · rw [if_neg h5]; exact Or.inr (Or.inr (Or.inl rfl))
        · rw [if_neg h4]; exact Or.inr (Or.inr (Or.inl rfl))
      · rw [if_neg h3]; exact Or.inr (Or.inr (Or.inl rfl))

/-- Candidate range invariant: once an index is recorded, the recorded
operator rank is in `[0, 4)`. -/
def scanInv (st : ScanState) : Prop :=
  st.lowest_operator_index.isSome = true →
    0 ≤ st.lowest_operator ∧ st.lowest_operator < 4

theorem scanStep_inv (st : ScanState) (p : List Char × Nat)
    (h : scanInv st) : scanInv (scanStep st p) := by
  rcases scanStep_cases st p with hc | hc | hc | ⟨hop, hc⟩ <;> rw [hc]
  · exact h
  · exact h
  · exact h
  · intro _
    refine ⟨Int.natCast_nonneg _, ?_⟩
    show (OPERATORS.indexOf p.1 : Int) < 4
    exact_mod_cast opIndex_lt4 p.1 hop

theorem foldl_scanInv (toks : List (List Char × Nat)) (st : ScanState)
    (h : scanInv st) : scanInv (toks.foldl scanStep st) := by
  induction toks generalizing st with
  | nil => exact h
  | cons x rest ih => exact ih _ (scanStep_inv st x h)

theorem findLowest_range (text : List Char) : scanInv (findLowest text) :=
  foldl_scanInv _ _ (by intro h; cases h)

/-- No-candidate invariant: while no index is recorded, the sentinel
values of `lowest_operator_brackets_level` and `lowest_operator` persist. -/
def noneInv (st : ScanState) : Prop :=
  st.lowest_operator_index = none →
    st.lowest_operator_brackets_level = -1 ∧ st.lowest_operator = -1

theorem scanStep_noneInv (st : ScanState) (p : List Char × Nat)
    (h : noneInv st) : noneInv (scanStep st p) := by
  rcases scanStep_cases st p with hc | hc | hc | ⟨hop, hc⟩ <;> rw [hc]
  · exact h
  · exact h
  · exact h
  · intro hnone; exact absurd hnone (by simp)

theorem scanStep_keep_none (st : ScanState) (p : List Char × Nat)
    (h : (scanStep st p).lowest_operator_index = none) :
    st.lowest_operator_index = none := by
  rcases scanStep_cases st p with hc | hc | hc | ⟨hop, hc⟩ <;> rw [hc] at h
  · exact h
  · exact h
  · exact h
  · exact absurd h (by simp)

theorem foldl_keep_none (toks : List (List Char × Nat)) (st : ScanState)
    (h : (toks.foldl scanStep st).lowest_operator_index = none) :
    st.lowest_operator_index = none := by
  induction toks generalizing st with
  | nil => exact h
  | cons x rest ih => exact scanStep_keep_none st x (ih _ h)

/-- If a scan step leaves the candidate unset, the stepped symbol was not
an operator (an operator always becomes the candidate when none is set,
since its rank is `≥ -1`). -/
theorem scanStep_notop_of_none (st : ScanState) (p : List Char × Nat)
    (hinv : noneInv st)
    (h : (scanStep st p).lowest_operator_index = none) : p.1 ∉ OPERATORS := by
  intro hop
  obtain ⟨hlob, hlo⟩ := hinv (scanStep_keep_none st p h)
  obtain ⟨hne1, hne2⟩ := op_ne_paren p.1 hop
  unfold scanStep at h
  rw [if_neg hne1, if_neg hne2, if_pos (Or.inl hlob), if_pos hop, if_pos] at h
  · exact absurd h (by simp)
  · right
    rw [hlo]
    exact le_trans (by norm_num) (Int.natCast_nonneg _)

/-- If the whole scan records no candidate, no scanned symbol was an
operator. -/
theorem scan_none_noop (toks : List (List Char × Nat)) : ∀ st : ScanState,
    noneInv st →
    (toks.foldl scanStep st).lowest_operator_index = none →
    ∀ p ∈ toks, p.1 ∉ OPERATORS := by
  induction toks with
  | nil => intro st _ _ p hp; exact absurd hp (List.not_mem_nil p)
  | cons x rest ih =>
    intro st hinv h p hp
    simp only [List.foldl_cons] at h
    rcases List.mem_cons.1 hp with rfl | hp'
    · exact scanStep_notop_of_none st p hinv (foldl_keep_none rest _ h)
    · exact ih (scanStep st x) (scanStep_noneInv st x hinv) h p hp'

/-! ## Well-formedness of built trees -/

/-- Leaf data as produced by the single-operand fallback of `from_infix`:
a nonempty digit run, or a single character that is no digit, no space, no
parenthesis and no operator. -/
def goodLeafData (d : List Char) : Prop :=
  (d ≠ [] ∧ ∀ ch ∈ d, ch.isDigit = true) ∨
  (∃ ch, d = [ch] ∧ ch.isDigit = false ∧ ch ≠ ' ' ∧ ch ≠ '(' ∧ ch ≠ ')' ∧
    d ∉ OPERATORS)

/-- Well-formed nodes: every tree `from_infix` can return consists of
operator-labelled inner nodes with two children over good leaves. -/
inductive WFNode : Node → Prop where
  | leaf (d : List Char) : goodLeafData d → WFNode (.mk d none none)
  | node (d : List Char) (l r : Node) : d ∈ OPERATORS → WFNode l → WFNode r →
      WFNode (.mk d (some l) (some r))

/-- The invariant claimed by the spec: a node is a leaf (no children, data
not an operator) or an inner node (two children, data an operator). -/
inductive NodeInv : Node → Prop where
  | leaf (d : List Char) : d ∉ OPERATORS → NodeInv (.mk d none none)
  | node (d : List Char) (l r : Node) : d ∈ OPERATORS → NodeInv l → NodeInv r →
      NodeInv (.mk d (some l) (some r))

theorem wf_nodeInv (n : Node) (h : WFNode n) : NodeInv n := by
  induction h with
  | leaf d hd =>
    refine NodeInv.leaf d ?_
    rcases hd with ⟨hne, hdig⟩ | ⟨ch, rfl, _, _, _, _, hmem⟩
    · exact digits_not_op d hne hdig
    · exact hmem
  | node d l r hop hl hr ihl ihr => exact NodeInv.node d l r hop ihl ihr

/-- The nodes on the postfix builder's stack always satisfy the spec's
node invariant. -/
theorem postfixRun_inv (syms : List (List Char)) (stack : List Node)
    (hstack : ∀ n ∈ stack, NodeInv n) (stack' : List Node)
    (hrun : postfixRun syms stack = .ok stack') :
    ∀ n ∈ stack', NodeInv n := by
  induction syms generalizing stack with
  | nil =>
    simp only [postfixRun] at hrun
    cases hrun
    exact hstack
  | cons s rest ih =>
    simp only [postfixRun] at hrun
    cases hps : pushSymbol stack s with
    | error e => rw [hps] at hrun; cases hrun
    | ok stack2 =>
      rw [hps] at hrun
      refine ih stack2 ?_ hrun
      intro n hn
      unfold pushSymbol at hps
      by_cases hop : s ∈ OPERATORS
      · rw [if_pos hop] at hps
        match stack, hstack with
        | r0 :: l0 :: rest0, hstack =>
          cases hps
          rcases List.mem_cons.1 hn with rfl | hn'
          · exact NodeInv.node _ _ _ hop (hstack l0 (by simp)) (hstack r0 (by simp))
          · exact hstack n (by simp [hn'])
        | [], _ => cases hps
        | [x], _ => cases hps
      · rw [if_neg hop] at hps
        cases hps
        rcases List.mem_cons.1 hn with rfl | hn'
        · exact NodeInv.leaf _ hop
        · exact hstack n hn'

/-- Any tree `from_infix` returns (at any fuel) is well-formed. -/
theorem wf_of_infixBuildFuel : ∀ (fuel : Nat) (text : List Char)
    (t : BinaryExpressionTree), infixBuildFuel fuel text = .ok t →
    WFNode t.root := by
  intro fuel
  induction fuel with
  | zero => intro text t h; cases h
  | succ f ih =>
    intro text t h
    unfold infixBuildFuel at h
    split at h
    · -- no operator candidate: single-operand fallback
      rename_i hidx
      split at h
      · rename_i sym hfind
        cases h
        refine WFNode.leaf sym ?_
        have hmem : sym ∈ get_symbols text := List.mem_of_find?_eq_some hfind
        have hP : inParens sym = false := by
          have := List.find?_some hfind
          simpa using this
        have hnp : ¬(sym = [] ∨ sym = ['('] ∨ sym = [')'] ∨ sym = ['(', ')']) := by
          simpa [inParens] using hP
        push_neg at hnp
        obtain ⟨hn0, hn1, hn2, hn3⟩ := hnp
        have hnoop : ∀ p ∈ get_symbols_idx text, p.1 ∉ OPERATORS :=
          scan_none_noop (get_symbols_idx text) initScan
            (by intro _; exact ⟨rfl, rfl⟩) hidx
        have hsymnoop : sym ∉ OPERATORS := by
          rcases List.mem_map.1 hmem with ⟨p, hp, hps⟩
          rw [← hps]
          exact hnoop p hp
        rcases symShape_of_mem_syms text sym hmem with ⟨hne, hdig⟩ | ⟨ch, rfl, hnd, hnsp⟩
        · exact Or.inl ⟨hne, hdig⟩
        · refine Or.inr ⟨ch, rfl, hnd, hnsp, ?_, ?_, hsymnoop⟩
          · intro hh; exact hn1 (by rw [hh])
          · intro hh; exact hn2 (by rw [hh])
      · cases h
    · -- operator candidate at index i: recursive build of both slices
      rename_i i hidx
      split at h
      · cases h
      · rename_i lt hlt
        split at h
        · cases h
        · rename_i rt hrt
          cases h
          refine WFNode.node _ _ _ ?_ (ih _ lt hlt) (ih _ rt hrt)
          have hrange := findLowest_range text (by rw [hidx]; rfl)
          refine getD_mem_OPERATORS _ ?_
          omega

/-! ## Tokenizing a rendered tree -/

/-- An operator symbol is a single non-digit, non-space character. -/
theorem op_char_props (d : List Char) (h : d ∈ OPERATORS) :
    ∃ c, d = [c] ∧ c.isDigit = false ∧ c ≠ ' ' := by
  simp only [OPERATORS, List.mem_cons, List.not_mem_nil, or_false] at h
  rcases h with rfl | rfl | rfl | rfl
  · exact ⟨'/', rfl, by decide, by decide⟩
  · exact ⟨'*', rfl, by decide, by decide⟩
  · exact ⟨'+', rfl, by decide, by decide⟩
  · exact ⟨'-', rfl, by decide, by decide⟩

theorem goodLeaf_ne_nil (d : List Char) (hd : goodLeafData d) : d ≠ [] := by
  rcases hd with ⟨hne, _⟩ | ⟨ch, rfl, _⟩
  · exact hne
  · simp

/-- A flush of a non-digit character after any state. -/
theorem tokStep_nondigit (st : TokState) (c : Char) (hc : c.isDigit = false) :
    tokStep st c =
      ⟨st.out ++ emitPending st ++ (if c ≠ ' ' then [([c], st.pos)] else []),
       [], st.pos + 1, st.pos + 1⟩ := by
  unfold tokStep emitPending
  rw [if_neg (by simp [hc])]

/-- Digit characters only accumulate in the pending buffer. -/
theorem digitFold : ∀ (d : List Char), (∀ ch ∈ d, ch.isDigit = true) →
    ∀ st : TokState, d.foldl tokStep st =
      ⟨st.out, st.symbol ++ d, st.symbol_index, st.pos + d.length⟩ := by
  intro d
  induction d with
  | nil =>
    intro _ st
    obtain ⟨o, sy, si, po⟩ := st
    simp
  | cons ch d' ih =>
    intro hd st
    simp only [List.foldl_cons]
    have hstep : tokStep st ch = ⟨st.out, st.symbol ++ [ch], st.symbol_index, st.pos + 1⟩ := by
      unfold tokStep
      rw [if_pos (hd ch (by simp))]
    rw [hstep, ih (fun x hx => hd x (by simp [hx]))]
    simp [TokState.mk.injEq, List.append_assoc] <;> omega

/-- Folding a run of non-digit characters from a clean state emits exactly
its `charToks`. -/
theorem charToksFold : ∀ (cs : List Char) (st : TokState),
    (∀ ch ∈ cs, ch.isDigit = false) → st.symbol = [] → st.symbol_index = st.pos →
    cs.foldl tokStep st =
      ⟨st.out ++ charToks cs st.pos, [], st.pos + cs.length, st.pos + cs.length⟩ := by
  intro cs
  induction cs with
  | nil =>
    intro st _ hsym hidx
    obtain ⟨o, sy, si, po⟩ := st
    simp only at hsym hidx
    subst hsym
    subst hidx
    simp [charToks]
  | cons c cs' ih =>
    intro st hnd hsym hidx
    simp only [List.foldl_cons]
    rw [tokStep_nondigit st c (hnd c (by simp))]
    have hemit : emitPending st = [] := by
      unfold emitPending
      rw [if_neg (by rw [hsym]; simp)]
    rw [hemit]
    rw [ih _ (fun x hx => hnd x (by simp [hx])) rfl rfl]
    by_cases hsp : c = ' ' <;>
      simp [TokState.mk.injEq, charToks, hsp, List.append_assoc] <;> omega

/-- The same for a possibly dirty state: the first (non-digit) character
flushes the pending buffer. -/
theorem charToksFoldFlush (cs : List Char) (st : TokState)
    (hne : cs ≠ []) (hnd : ∀ ch ∈ cs, ch.isDigit = false) :
    cs.foldl tokStep st =
      ⟨st.out ++ emitPending st ++ charToks cs st.pos, [],
       st.pos + cs.length, st.pos + cs.length⟩ := by
  cases cs with
  | nil => exact absurd rfl hne
  | cons c cs' =>
    simp only [List.foldl_cons]
    rw [tokStep_nondigit st c (hnd c (by simp))]
    rw [charToksFold cs' _ (fun x hx => hnd x (by simp [hx])) rfl rfl]
    by_cases hsp : c = ' ' <;>
      simp [TokState.mk.injEq, charToks, hsp, List.append_assoc] <;> omega

/-- What `afterTok` emits: the tokens of the rendered tree, at the right
final position. -/
theorem afterTok_emitted (st : TokState) (n : Node) (hwf : WFNode n) :
    (afterTok st n).out ++ emitPending (afterTok st n) = st.out ++ infixToks n st.pos ∧
    (afterTok st n).pos = st.pos + n.infixRender.length := by
  cases hwf with
  | leaf d hd =>
    by_cases hall : d.all Char.isDigit
    · simp only [afterTok]
      rw [if_pos hall]
      constructor
      · show st.out ++ emitPending ⟨st.out, d, st.pos, st.pos + d.length⟩ = _
        unfold emitPending
        rw [if_pos (by simpa using goodLeaf_ne_nil d hd)]
        simp [infixToks]
      · show st.pos + d.length = st.pos + (Node.mk d none none).infixRender.length
        rfl
    · simp only [afterTok]
      rw [if_neg hall]
      have hlen : d.length = 1 := by
        rcases hd with ⟨hne, hdig⟩ | ⟨ch, rfl, _⟩
        · exact absurd (List.all_eq_true.2 hdig) hall
        · rfl
      constructor
      · show (st.out ++ [(d, st.pos)]) ++ emitPending ⟨st.out ++ [(d, st.pos)], [], st.pos + 1, st.pos + 1⟩ = _
        unfold emitPending
        simp [infixToks]
      · show st.pos + 1 = st.pos + (Node.mk d none none).infixRender.length
        show st.pos + 1 = st.pos + d.length
        rw [hlen]
  | node d l r hop hl hr =>
    constructor
    · show (st.out ++ infixToks _ st.pos) ++ emitPending ⟨st.out ++ infixToks _ st.pos, [], _, _⟩ = _
      unfold emitPending
      simp
    · rfl

/-- One non-digit, non-space character from a clean state. -/
theorem singleFoldChar (st : TokState) (c : Char) (hc : c.isDigit = false)
    (hcs : c ≠ ' ') (hsym : st.symbol = []) :
    List.foldl tokStep st [c] =
      ⟨st.out ++ [([c], st.pos)], [], st.pos + 1, st.pos + 1⟩ := by
  simp only [List.foldl_cons, List.foldl_nil]
  rw [tokStep_nondigit st c hc]
  have hemit : emitPending st = [] := by
    unfold emitPending
    rw [if_neg (by rw [hsym]; simp)]
  rw [hemit]
  simp [hcs]

/-- One space from a clean state. -/
theorem singleFoldSpace (st : TokState) (hsym : st.symbol = []) :
    List.foldl tokStep st [' '] = ⟨st.out, [], st.pos + 1, st.pos + 1⟩ := by
  simp only [List.foldl_cons, List.foldl_nil]
  rw [tokStep_nondigit st ' ' (by decide)]
  have hemit : emitPending st = [] := by
    unfold emitPending
    rw [if_neg (by rw [hsym]; simp)]
  rw [hemit]
  simp

/-- One non-digit, non-space character right after a rendered tree. -/
theorem afterFoldChar (st : TokState) (n : Node) (hwf : WFNode n) (c : Char)
    (hc : c.isDigit = false) (hcs : c ≠ ' ') :
    List.foldl tokStep (afterTok st n) [c] =
      ⟨st.out ++ infixToks n st.pos ++ [([c], st.pos + n.infixRender.length)],
       [], st.pos + n.infixRender.length + 1, st.pos + n.infixRender.length + 1⟩ := by
  obtain ⟨hout, hpos⟩ := afterTok_emitted st n hwf
  simp only [List.foldl_cons, List.foldl_nil]
  rw [tokStep_nondigit _ c hc, hout, hpos]
  simp [hcs]

/-- One space right after a rendered tree. -/
theorem afterFoldSpace (st : TokState) (n : Node) (hwf : WFNode n) :
    List.foldl tokStep (afterTok st n) [' '] =
      ⟨st.out ++ infixToks n st.pos, [],
       st.pos + n.infixRender.length + 1, st.pos + n.infixRender.length + 1⟩ := by
  obtain ⟨hout, hpos⟩ := afterTok_emitted st n hwf
  simp only [List.foldl_cons, List.foldl_nil]
  rw [tokStep_nondigit _ ' ' (by decide), hout, hpos]
  simp

/-- Tokenizing the rendering of a well-formed tree from a clean state
reaches exactly `afterTok`. -/
theorem tokFold (n : Node) (hwf : WFNode n) : ∀ st : TokState,
    st.symbol = [] → st.symbol_index = st.pos →
    List.foldl tokStep st n.infixRender = afterTok st n := by
  induction hwf with
  | leaf d hd =>
    intro st hsym hidx
    show List.foldl tokStep st d = _
    by_cases hall : d.all Char.isDigit
    · rw [digitFold d (fun ch hch => List.all_eq_true.1 hall ch hch) st]
      simp only [afterTok]
      rw [if_pos hall, hsym, hidx]
      simp
    · rcases hd with ⟨hne, hdig⟩ | ⟨ch, rfl, hnd, hnsp, _⟩
      · exact absurd (List.all_eq_true.2 hdig) hall
      · rw [singleFoldChar st ch hnd hnsp hsym]
        simp only [afterTok]
        rw [if_neg hall]
  | node d l r hop hl hr ihl ihr =>
    intro st hsym hidx
    obtain ⟨cop, hdc, hcd, hcs⟩ := op_char_props d hop
    subst hdc
    have hR : (Node.mk [cop] (some l) (some r)).infixRender =
        ((((((['('] ++ l.infixRender) ++ [' ']) ++ [cop]) ++ [' ']) ++
          r.infixRender) ++ [')']) := by
      simp [Node.infixRender]
    rw [hR, List.foldl_append, List.foldl_append, List.foldl_append,
        List.foldl_append, List.foldl_append, List.foldl_append]
    rw [singleFoldChar st '(' (by decide) (by decide) hsym]
    rw [ihl _ rfl rfl]
    rw [afterFoldSpace _ l hl]
    rw [singleFoldChar _ cop hcd hcs rfl]
    rw [singleFoldSpace _ rfl]
    rw [ihr _ rfl rfl]
    rw [afterFoldChar _ r hr ')' (by decide) (by decide)]
    simp [afterTok, infixToks, Node.infixRender, TokState.mk.injEq,
      List.append_assoc] <;> omega

/-! ## Scanning a rendered tree for the lowest operator -/

theorem goodLeaf_props (d : List Char) (hd : goodLeafData d) :
    d ≠ ['('] ∧ d ≠ [')'] ∧ d ∉ OPERATORS := by
  rcases hd with ⟨hne, hdig⟩ | ⟨ch, rfl, hnd, hnsp, hnp1, hnp2, hnop⟩
  · refine ⟨?_, ?_, digits_not_op d hne hdig⟩
    · rintro rfl
      exact absurd (hdig '(' (by simp)) (by decide)
    · rintro rfl
      exact absurd (hdig ')' (by simp)) (by decide)
  · refine ⟨?_, ?_, hnop⟩
    · intro h
      injection h with h1 _
      exact hnp1 h1
    · intro h
      injection h with h1 _
      exact hnp2 h1

/-- Scanning the tokens of a run of `'('` and spaces only raises the
bracket level by the number of `'('`. -/
theorem scan_charToks_open : ∀ (o : List Char),
    (∀ ch ∈ o, ch = '(' ∨ ch = ' ') → ∀ (p : Nat) (st : ScanState),
    (charToks o p).foldl scanStep st =
      { st with brackets_level := st.brackets_level + (o.count '(' : Int) } := by
  intro o
  induction o with
  | nil =>
    intro _ p st
    obtain ⟨lo, li, bl, lob⟩ := st
    simp [charToks]
  | cons ch o' ih =>
    intro ho p st
    obtain ⟨lo, li, bl, lob⟩ := st
    rcases ho ch (by simp) with rfl | rfl
    · have hct : charToks ('(' :: o') p = (['('], p) :: charToks o' (p + 1) := by
        simp [charToks]
      rw [hct]
      simp only [List.foldl_cons]
      have hstep : scanStep ⟨lo, li, bl, lob⟩ (['('], p) = ⟨lo, li, bl + 1, lob⟩ := by
        unfold scanStep
        rw [if_pos rfl]
      rw [hstep, ih (fun x hx => ho x (by simp [hx])) (p + 1) _]
      simp [ScanState.mk.injEq, List.count_cons]
      omega
    · have hct : charToks (' ' :: o') p = charToks o' (p + 1) := by
        simp [charToks]
      rw [hct, ih (fun x hx => ho x (by simp [hx])) (p + 1) _]
      simp [ScanState.mk.injEq, List.count_cons]

/-- Scanning the tokens of a run of `')'` and spaces only lowers the
bracket level by the number of `')'`. -/
theorem scan_charToks_close : ∀ (cl : List Char),
    (∀ ch ∈ cl, ch = ')' ∨ ch = ' ') → ∀ (p : Nat) (st : ScanState),
    (charToks cl p).foldl scanStep st =
      { st with brackets_level := st.brackets_level - (cl.count ')' : Int) } := by
  intro cl
  induction cl with
  | nil =>
    intro _ p st
    obtain ⟨lo, li, bl, lob⟩ := st
    simp [charToks]
  | cons ch cl' ih =>
    intro hcl p st
    obtain ⟨lo, li, bl, lob⟩ := st
    rcases hcl ch (by simp) with rfl | rfl
    · have hct : charToks (')' :: cl') p = ([')'], p) :: charToks cl' (p + 1) := by
        simp [charToks]
      rw [hct]
      simp only [List.foldl_cons]
      have hstep : scanStep ⟨lo, li, bl, lob⟩ ([')'], p) = ⟨lo, li, bl - 1, lob⟩ := by
        unfold scanStep
        rw [if_neg (show ¬([')'], p).1 = ['('] from by simp), if_pos rfl]
      rw [hstep, ih (fun x hx => hcl x (by simp [hx])) (p + 1) _]
      simp [ScanState.mk.injEq, List.count_cons]
      omega
    · have hct : charToks (' ' :: cl') p = charToks cl' (p + 1) := by
        simp [charToks]
      rw [hct, ih (fun x hx => hcl x (by simp [hx])) (p + 1) _]
      simp [ScanState.mk.injEq, List.count_cons]

/-- Once a candidate at a bracket level not above the current one is
recorded, the tokens of a deeper rendered tree change nothing. -/
theorem scan_skip (n : Node) (hwf : WFNode n) : ∀ (st : ScanState) (p : Nat),
    0 ≤ st.lowest_operator_brackets_level →
    st.lowest_operator_brackets_level ≤ st.brackets_level →
    (infixToks n p).foldl scanStep st = st := by
  induction hwf with
  | leaf d hd =>
    intro st p h0 h1
    obtain ⟨lo, li, bl, lob⟩ := st
    obtain ⟨hne1, hne2, hnop⟩ := goodLeaf_props d hd
    simp only [infixToks, List.foldl_cons, List.foldl_nil]
    unfold scanStep
    rw [if_neg hne1, if_neg hne2]
    by_cases hc : lob = -1 ∨ bl ≤ lob
    · rw [if_pos hc, if_neg hnop]
    · rw [if_neg hc]
  | node d l r hop hl hr ihl ihr =>
    intro st p h0 h1
    obtain ⟨lo, li, bl, lob⟩ := st
    simp only at h0 h1
    obtain ⟨hne1, hne2⟩ := op_ne_paren d hop
    simp only [infixToks, List.foldl_cons, List.foldl_append]
    have hstep1 : scanStep ⟨lo, li, bl, lob⟩ (['('], p) = ⟨lo, li, bl + 1, lob⟩ := by
      unfold scanStep
      rw [if_pos rfl]
    rw [hstep1, ihl _ _ (by exact h0) (by show lob ≤ bl + 1; omega)]
    have hstep2 : scanStep ⟨lo, li, bl + 1, lob⟩ (d, p + 1 + l.infixRender.length + 1) =
        ⟨lo, li, bl + 1, lob⟩ := by
      unfold scanStep
      rw [if_neg hne1, if_neg hne2, if_neg]
      show ¬(lob = -1 ∨ bl + 1 ≤ lob)
      push_neg
      exact ⟨by omega, by omega⟩
    rw [hstep2, ihr _ _ (by exact h0) (by show lob ≤ bl + 1; omega)]
    have hstep3 : scanStep ⟨lo, li, bl + 1, lob⟩
        ([')'], p + 1 + l.infixRender.length + 1 + 1 + 1 + r.infixRender.length) =
        ⟨lo, li, bl + 1 - 1, lob⟩ := by
      unfold scanStep
      rw [if_neg (show ¬([')'],
        p + 1 + l.infixRender.length + 1 + 1 + 1 + r.infixRender.length).1 = ['(']
        from by simp), if_pos rfl]
    rw [hstep3]
    have hbl : bl + 1 - 1 = bl := by omega
    rw [hbl]
    rfl

/-- Scanning the tokens of a well-formed rendered tree from a fresh state
at bracket level `m ≥ 0` ends in `scanResult`: nothing is recorded for a
leaf, the root operator is recorded for an inner tree. -/
theorem scan_root (n : Node) (hwf : WFNode n) : ∀ (m : Int) (p : Nat), 0 ≤ m →
    (infixToks n p).foldl scanStep ⟨-1, none, m, -1⟩ = scanResult n m p := by
  induction hwf with
  | leaf d hd =>
    intro m p hm
    obtain ⟨hne1, hne2, hnop⟩ := goodLeaf_props d hd
    simp only [infixToks, List.foldl_cons, List.foldl_nil, scanResult]
    unfold scanStep
    rw [if_neg hne1, if_neg hne2, if_pos (Or.inl rfl), if_neg hnop]
  | node d l r hop hl hr ihl ihr =>
    intro m p hm
    obtain ⟨hne1, hne2⟩ := op_ne_paren d hop
    simp only [infixToks, List.foldl_cons, List.foldl_append]
    have hstep1 : scanStep ⟨-1, none, m, -1⟩ (['('], p) = ⟨-1, none, m + 1, -1⟩ := by
      unfold scanStep
      rw [if_pos rfl]
    rw [hstep1, ihl (m + 1) (p + 1) (by omega)]
    have hstep2 : scanStep (scanResult l (m + 1) (p + 1))
        (d, p + 1 + l.infixRender.length + 1) =
        ⟨(OPERATORS.indexOf d : Int), some (p + 1 + l.infixRender.length + 1),
         m + 1, m + 1⟩ := by
      cases l with
      | mk dl ol og =>
        cases ol with
        | none =>
          cases og with
          | none =>
            simp only [scanResult]
            unfold scanStep
            rw [if_neg hne1, if_neg hne2, if_pos (Or.inl rfl), if_pos hop, if_pos]
            right
            show (OPERATORS.indexOf d : Int) ≥ -1
            omega
          | some rr =>
            simp only [scanResult]
            unfold scanStep
            rw [if_neg hne1, if_neg hne2, if_pos (Or.inl rfl), if_pos hop, if_pos]
            right
            show (OPERATORS.indexOf d : Int) ≥ -1
            omega
        | some ll =>
          simp only [scanResult]
          unfold scanStep
          rw [if_neg hne1, if_neg hne2, if_pos (Or.inr (by show m + 1 ≤ m + 1 + 1; omega)),
            if_pos hop, if_pos (Or.inl (by show m + 1 < m + 1 + 1; omega))]
    rw [hstep2,
      scan_skip r hr _ _ (by show (0 : Int) ≤ m + 1; omega) (by show m + 1 ≤ m + 1; omega)]
    have hstep3 : scanStep
        ⟨(OPERATORS.indexOf d : Int), some (p + 1 + l.infixRender.length + 1), m + 1, m + 1⟩
        ([')'], p + 1 + l.infixRender.length + 1 + 1 + 1 + r.infixRender.length) =
        ⟨(OPERATORS.indexOf d : Int), some (p + 1 + l.infixRender.length + 1),
         m + 1 - 1, m + 1⟩ := by
      unfold scanStep
      rw [if_neg (show ¬([')'],
        p + 1 + l.infixRender.length + 1 + 1 + 1 + r.infixRender.length).1 = ['(']
        from by simp), if_pos rfl]
    rw [hstep3]
    have hm1 : m + 1 - 1 = m := by omega
    rw [hm1]
    simp only [scanResult, List.foldl_nil]

/-- Helper: `get_symbols_idx` as emitted tokens plus a final flush. -/
theorem get_symbols_idx_eq (text : List Char) :
    get_symbols_idx text = (text.foldl tokStep ⟨[], [], 0, 0⟩).out ++
      emitPending (text.foldl tokStep ⟨[], [], 0, 0⟩) := rfl

/-- The token stream of a rendered tree wrapped in opening junk on the
left and closing junk on the right. -/
theorem symbols_concat (n : Node) (hwf : WFNode n) (o cl : List Char)
    (ho : ∀ ch ∈ o, ch = '(' ∨ ch = ' ') (hcl : ∀ ch ∈ cl, ch = ')' ∨ ch = ' ') :
    get_symbols_idx (o ++ n.infixRender ++ cl) =
      charToks o 0 ++ infixToks n o.length ++
        charToks cl (o.length + n.infixRender.length) := by
  have ho' : ∀ ch ∈ o, ch.isDigit = false := by
    intro ch hch
    rcases ho ch hch with rfl | rfl <;> decide
  have hcl' : ∀ ch ∈ cl, ch.isDigit = false := by
    intro ch hch
    rcases hcl ch hch with rfl | rfl <;> decide
  rw [get_symbols_idx_eq, List.foldl_append, List.foldl_append]
  rw [charToksFold o ⟨[], [], 0, 0⟩ ho' rfl rfl]
  rw [tokFold n hwf _ rfl rfl]
  obtain ⟨hout, hpos⟩ :=
    afterTok_emitted ⟨[] ++ charToks o 0, [], 0 + o.length, 0 + o.length⟩ n hwf
  cases cl with
  | nil =>
    simp only [List.foldl_nil]
    rw [hout]
    simp [charToks]
  | cons c cs =>
    rw [charToksFoldFlush (c :: cs) _ (by simp) hcl']
    rw [hout, hpos]
    simp [emitPending, List.append_assoc]

/-- The operator search over junk-wrapped renderings: the recorded index
and operator are those of `scanResult` at bracket level `count '(' o` and
offset `o.length`. -/
theorem findLowest_concat (n : Node) (hwf : WFNode n) (o cl : List Char)
    (ho : ∀ ch ∈ o, ch = '(' ∨ ch = ' ') (hcl : ∀ ch ∈ cl, ch = ')' ∨ ch = ' ') :
    (findLowest (o ++ n.infixRender ++ cl)).lowest_operator_index =
      (scanResult n (o.count '(' : Int) o.length).lowest_operator_index ∧
    (findLowest (o ++ n.infixRender ++ cl)).lowest_operator =
      (scanResult n (o.count '(' : Int) o.length).lowest_operator := by
  unfold findLowest
  rw [symbols_concat n hwf o cl ho hcl]
  rw [List.foldl_append, List.foldl_append]
  rw [scan_charToks_open o ho 0 initScan]
  have hst : ({ initScan with
      brackets_level := initScan.brackets_level + (o.count '(' : Int) } : ScanState) =
      ⟨-1, none, (o.count '(' : Int), -1⟩ := by
    show (⟨-1, none, 0 + (o.count '(' : Int), -1⟩ : ScanState) = _
    norm_num
  rw [hst, scan_root n hwf (o.count '(' : Int) o.length (Int.natCast_nonneg _)]
  rw [scan_charToks_close cl hcl _ _]
  exact ⟨rfl, rfl⟩

/-! ## Rebuilding a rendered tree -/

theorem find?_skip (p : List Char → Bool) : ∀ (xs ys : List (List Char)),
    (∀ x ∈ xs, p x = false) → List.find? p (xs ++ ys) = List.find? p ys := by
  intro xs ys
  induction xs with
  | nil => intro _; rfl
  | cons x xs' ih =>
    intro h
    simp only [List.cons_append]
    rw [List.find?_cons_of_neg _ (by simp [h x (by simp)]),
      ih (fun y hy => h y (by simp [hy]))]

theorem goodLeaf_notParens (d : List Char) (hd : goodLeafData d) :
    (! inParens d) = true := by
  obtain ⟨hp1, hp2, _⟩ := goodLeaf_props d hd
  have hne := goodLeaf_ne_nil d hd
  have hnp : d ≠ ['(', ')'] := by
    rcases hd with ⟨_, hdig⟩ | ⟨ch, rfl, _⟩
    · rintro rfl
      exact absurd (hdig '(' (by simp)) (by decide)
    · simp
  unfold inParens
  simp [hne, hp1, hp2, hnp]

/-- Every token of an opening-junk run is the symbol `"("`. -/
theorem charToks_mem_open : ∀ (o : List Char),
    (∀ ch ∈ o, ch = '(' ∨ ch = ' ') → ∀ (p : Nat) (x : List Char × Nat),
    x ∈ charToks o p → x.1 = ['('] := by
  intro o
  induction o with
  | nil =>
    intro _ p x hx
    simp [charToks] at hx
  | cons ch o' ih =>
    intro ho p x hx
    rcases ho ch (by simp) with rfl | rfl
    · rw [show charToks ('(' :: o') p = (['('], p) :: charToks o' (p + 1) from by
        simp [charToks]] at hx
      rcases List.mem_cons.1 hx with rfl | hx'
      · rfl
      · exact ih (fun y hy => ho y (by simp [hy])) (p + 1) x hx'
    · rw [show charToks (' ' :: o') p = charToks o' (p + 1) from by
        simp [charToks]] at hx
      exact ih (fun y hy => ho y (by simp [hy])) (p + 1) x hx

theorem op_getD (d : List Char) (h : d ∈ OPERATORS) :
    OPERATORS.getD (OPERATORS.indexOf d) [] = d := by
  simp only [OPERATORS, List.mem_cons, List.not_mem_nil, or_false] at h
  rcases h with rfl | rfl | rfl | rfl <;> rfl

theorem render_length_pos (n : Node) (hwf : WFNode n) :
    0 < n.infixRender.length := by
  cases hwf with
  | leaf d hd =>
    show 0 < d.length
    cases d with
    | nil => exact absurd rfl (goodLeaf_ne_nil [] hd)
    | cons _ _ => simp
  | node d l r hop hl hr =>
    show 0 < ((Node.mk d (some l) (some r)).infixRender).length
    simp [Node.infixRender]

/-- Main rebuild lemma: `from_infix` applied to the rendering of a
well-formed tree — wrapped in any run of `'('`/spaces on the left and
`')'`/spaces on the right — reconstructs exactly that tree, for any
sufficient fuel. -/
theorem build_render (n : Node) (hwf : WFNode n) : ∀ (o cl : List Char) (fuel : Nat),
    (∀ ch ∈ o, ch = '(' ∨ ch = ' ') → (∀ ch ∈ cl, ch = ')' ∨ ch = ' ') →
    (o ++ n.infixRender ++ cl).length + 1 ≤ fuel →
    infixBuildFuel fuel (o ++ n.infixRender ++ cl) = .ok ⟨n⟩ := by
  induction hwf with
  | leaf d hd =>
    intro o cl fuel ho hcl hfuel
    cases fuel with
    | zero => omega
    | succ f =>
      obtain ⟨hidx, _⟩ := findLowest_concat _ (WFNode.leaf d hd) o cl ho hcl
      simp only [scanResult] at hidx
      unfold infixBuildFuel
      split
      · -- no candidate: the fallback finds the leaf symbol
        have hsyms : get_symbols (o ++ (Node.mk d none none).infixRender ++ cl) =
            (charToks o 0).map Prod.fst ++
              (d :: (charToks cl (o.length + d.length)).map Prod.fst) := by
          unfold get_symbols
          rw [symbols_concat _ (WFNode.leaf d hd) o cl ho hcl]
          simp [infixToks, Node.infixRender]
        rw [hsyms]
        rw [find?_skip _ _ _ ?hskip]
        case hskip =>
          intro x hx
          rcases List.mem_map.1 hx with ⟨q, hq, rfl⟩
          rw [charToks_mem_open o ho 0 q hq]
          decide
        have hfind : List.find? (fun s => ! inParens s)
            (d :: (charToks cl (o.length + d.length)).map Prod.fst) = some d := by
          simp [List.find?, goodLeaf_notParens d hd]
        rw [hfind]
      · -- a candidate contradicts the scan of a leaf rendering
        rename_i i heq
        rw [hidx] at heq
        cases heq
  | node d l r hop hl hr ihl ihr =>
    intro o cl fuel ho hcl hfuel
    cases fuel with
    | zero => omega
    | succ f =>
      obtain ⟨cop, hdc, hcd, hcs⟩ := op_char_props d hop
      subst hdc
      obtain ⟨hidx, hlop⟩ :=
        findLowest_concat _ (WFNode.node [cop] l r hop hl hr) o cl ho hcl
      simp only [scanResult] at hidx hlop
      unfold infixBuildFuel
      split
      · -- no candidate contradicts the scan of an inner rendering
        rename_i heq
        rw [hidx] at heq
        cases heq
      · rename_i i heq
        rw [hidx] at heq
        injection heq with hi
        subst hi
        have hsplit : o ++ (Node.mk [cop] (some l) (some r)).infixRender ++ cl =
            ((o ++ ['(']) ++ l.infixRender ++ [' ']) ++
              (cop :: ([' '] ++ r.infixRender ++ ([')'] ++ cl))) := by
          simp [Node.infixRender]
        have hA : o.length + 1 + l.infixRender.length + 1 =
            ((o ++ ['(']) ++ l.infixRender ++ [' ']).length := by
          simp
          omega
        have htake : (o ++ (Node.mk [cop] (some l) (some r)).infixRender ++ cl).take
            (o.length + 1 + l.infixRender.length + 1) =
            (o ++ ['(']) ++ l.infixRender ++ [' '] := by
          rw [hsplit, hA, List.take_left]
        have hB : o.length + 1 + l.infixRender.length + 1 + 1 =
            (((o ++ ['(']) ++ l.infixRender ++ [' ']) ++ [cop]).length := by
          simp
          omega
        have hdrop : (o ++ (Node.mk [cop] (some l) (some r)).infixRender ++ cl).drop
            (o.length + 1 + l.infixRender.length + 1 + 1) =
            [' '] ++ r.infixRender ++ ([')'] ++ cl) := by
          rw [hsplit,
            show ((o ++ ['(']) ++ l.infixRender ++ [' ']) ++
                (cop :: ([' '] ++ r.infixRender ++ ([')'] ++ cl))) =
              (((o ++ ['(']) ++ l.infixRender ++ [' ']) ++ [cop]) ++
                ([' '] ++ r.infixRender ++ ([')'] ++ cl)) from by simp,
            hB, List.drop_left]
        have hrpos := render_length_pos r hr
        have hlpos := render_length_pos l hl
        have hlen_s : (o ++ (Node.mk [cop] (some l) (some r)).infixRender ++ cl).length =
            o.length + (l.infixRender.length + r.infixRender.length + 5) + cl.length := by
          simp [Node.infixRender]
          omega
        have hf2 := hfuel
        rw [hlen_s] at hf2
        rw [htake, hdrop]
        rw [ihl (o ++ ['(']) [' '] f
          (by
            intro ch hch
            rcases List.mem_append.1 hch with hch | hch
            · exact ho ch hch
            · left
              exact List.mem_singleton.1 hch)
          (by
            intro ch hch
            right
            exact List.mem_singleton.1 hch)
          (by
            simp
            omega)]
        rw [ihr [' '] ([')'] ++ cl) f
          (by
            intro ch hch
            right
            exact List.mem_singleton.1 hch)
          (by
            intro ch hch
            rcases List.mem_append.1 hch with hch | hch
            · left
              exact List.mem_singleton.1 hch
            · exact hcl ch hch)
          (by
            simp
            omega)]
        rw [hlop, Int.toNat_natCast, op_getD [cop] hop]

/-! ## Claim theorems -/

/-- C1 (counterexample): `from_infix("8 - 3 - 2")` does NOT render back as
`"(8 - (3 - 2))"`; the rightmost-split rule puts `"8 - 3"` in the left
subtree, so the rendering is `"((8 - 3) - 2)"`. -/
theorem c1_counterexample :
    (infixBuild "8 - 3 - 2".toList).map (fun t => t.root.infixRender) ≠
      Except.ok "(8 - (3 - 2))".toList := by
  have h1 : (infixBuild "8 - 3 - 2".toList).map (fun t => t.root.infixRender) =
      Except.ok "((8 - 3) - 2)".toList := rfl
  rw [h1]
  intro h
  exact absurd (Except.ok.inj h) (by decide)

/-- C1 (amended): on `"8 - 3 - 2"` the scan of `from_infix` chooses the
rightmost top-level `-` (character index 6) as the split operator, and the
resulting tree renders via `get_infix` as `"((8 - 3) - 2)"`. -/
theorem c1_amended :
    (findLowest "8 - 3 - 2".toList).lowest_operator_index = some 6 ∧
    (infixBuild "8 - 3 - 2".toList).map (fun t => t.root.infixRender) =
      Except.ok "((8 - 3) - 2)".toList :=
  ⟨rfl, rfl⟩

/-- C2 (counterexample): `from_postfix("3 4")` leaves two nodes on the
stack yet returns a tree (rooted at the top element, the leaf `4`) instead
of failing with any error. -/
theorem c2_counterexample :
    postfixBuild "3 4".toList = Except.ok ⟨Node.mk ['4'] none none⟩ := rfl

/-- C2 (amended): when processing all symbols leaves more than one node on
the stack, `from_postfix` does not fail: it returns the tree rooted at the
top (most recently pushed) stack element, silently discarding the rest. -/
theorem c2_amended (text : List Char) (n : Node) (rest : List Node)
    (hrun : postfixRun (get_symbols text) [] = .ok (n :: rest))
    (hrest : rest ≠ []) :
    postfixBuild text = .ok ⟨n⟩ := by
  unfold postfixBuild
  rw [hrun]

/-- C2 witness: the amended statement at `"3 4"`, where the final stack is
`[leaf 4, leaf 3]`. -/
theorem c2_witness :
    postfixBuild "3 4".toList = .ok ⟨Node.mk ['4'] none none⟩ :=
  c2_amended "3 4".toList (Node.mk ['4'] none none)
    [Node.mk ['3'] none none] rfl (List.cons_ne_nil _ _)

/-- C3: whenever the postfix symbol stream reaches an operator while the
stack holds fewer than two nodes, `from_postfix` fails with
`StackUnderflow`; instantiating at `"+"` gives the claim's example. -/
theorem c3_underflow (text : List Char) (pre post : List (List Char))
    (s : List Char) (stack : List Node)
    (hsyms : get_symbols text = pre ++ s :: post)
    (hrun : postfixRun pre [] = .ok stack)
    (hop : s ∈ OPERATORS)
    (hlen : stack.length < 2) :
    postfixBuild text = .error .stackUnderflow := by
  unfold postfixBuild
  rw [hsyms, postfixRun_append, hrun]
  have hpush := pushSymbol_underflow stack s hop hlen
  simp only [postfixRun, hpush]

/-- C3 witness: `from_postfix("+")` fails with `StackUnderflow` (the
operator arrives on an empty stack). -/
theorem c3_witness : postfixBuild "+".toList = .error .stackUnderflow :=
  c3_underflow "+".toList [] [] ['+'] [] rfl rfl (by decide) (by decide)

/-- C4: on `"2 + 3 * 4"` the scan chooses the `+` (index 2 in the text,
operator rank 2 in `OPERATORS`), and the tree renders via `get_postfix` as
`"2 3 4 * +"`. -/
theorem c4_precedence :
    (findLowest "2 + 3 * 4".toList).lowest_operator_index = some 2 ∧
    (findLowest "2 + 3 * 4".toList).lowest_operator = 2 ∧
    (infixBuild "2 + 3 * 4".toList).map (fun t => t.root.postfixRender) =
      Except.ok "2 3 4 * +".toList :=
  ⟨rfl, rfl, rfl⟩

/-- C5: on `"(2 + 3) * 4"` the scan chooses the `*` (index 8 in the text,
operator rank 1 in `OPERATORS`) because the `+` sits at bracket depth 1,
and the tree renders via `get_postfix` as `"2 3 + 4 *"`. -/
theorem c5_parens :
    (findLowest "(2 + 3) * 4".toList).lowest_operator_index = some 8 ∧
    (findLowest "(2 + 3) * 4".toList).lowest_operator = 1 ∧
    (infixBuild "(2 + 3) * 4".toList).map (fun t => t.root.postfixRender) =
      Except.ok "2 3 + 4 *".toList :=
  ⟨rfl, rfl, rfl⟩

/-- C9: tokenizing `"12 + 345"` with indices yields exactly `"12"`, `"+"`,
`"345"` at character offsets 0, 3 and 5. -/
theorem c9_tokens :
    get_symbols_idx "12 + 345".toList =
      [(['1', '2'], 0), (['+'], 3), (['3', '4', '5'], 5)] := rfl

/-- C10: `from_infix("(2 + 3")` succeeds despite the unbalanced
parenthesis — the fallback skips parenthesis symbols without checking
balance — and yields the same tree as `from_infix("(2 + 3)")`. -/
theorem c10_unbalanced :
    infixBuild "(2 + 3".toList =
      .ok ⟨Node.mk ['+'] (some (Node.mk ['2'] none none))
            (some (Node.mk ['3'] none none))⟩ ∧
    infixBuild "(2 + 3".toList = infixBuild "(2 + 3)".toList :=
  ⟨rfl, rfl⟩

/-- C7 (counterexample): tokenizing a tab character emits it as a symbol,
although the tab is a whitespace character — only the space character is
skipped. -/
theorem c7_counterexample :
    get_symbols "\t".toList = [['\t']] ∧ ('\t').isWhitespace = true :=
  ⟨rfl, rfl⟩

/-- C7 (amended): the tokenizer never emits the space character `' '`
inside any symbol (but whitespace other than `' '` is emitted). -/
theorem c7_amended (text : List Char) (s : List Char)
    (hs : s ∈ get_symbols text) : ' ' ∉ s := by
  rcases symShape_of_mem_syms text s hs with ⟨_, hdig⟩ | ⟨ch, rfl, _, hnsp⟩
  · intro hmem
    exact absurd (hdig ' ' hmem) (by decide)
  · intro hmem
    exact hnsp (List.mem_singleton.1 hmem).symm

/-- C7 witness: the amended statement at text `"1 2"` and its symbol
`"1"`. -/
theorem c7_witness : ' ' ∉ (['1'] : List Char) :=
  c7_amended "1 2".toList ['1'] (by decide)

/-- C8: every tree returned by `from_postfix` or `from_infix` consists of
childless nodes whose data is not an operator and two-child nodes whose
data is one of the four operators — no reachable node has exactly one
child. -/
theorem c8_node_invariant (text : List Char) (t : BinaryExpressionTree)
    (h : postfixBuild text = .ok t ∨ infixBuild text = .ok t) :
    NodeInv t.root := by
  rcases h with h | h
  · unfold postfixBuild at h
    cases hrun : postfixRun (get_symbols text) [] with
    | error e => rw [hrun] at h; cases h
    | ok stack =>
      rw [hrun] at h
      match stack, h with
      | top :: rest, h =>
        cases h
        exact postfixRun_inv _ [] (by intro n hn; cases hn) _ hrun top (by simp)
      | [], h => cases h
  · exact wf_nodeInv _ (wf_of_infixBuildFuel _ _ _ h)

/-- C8 witness: the invariant holds for the tree built from the postfix
input `"3 4 +"`. -/
theorem c8_witness :
    NodeInv (Node.mk ['+'] (some (Node.mk ['3'] none none))
      (some (Node.mk ['4'] none none))) :=
  c8_node_invariant "3 4 +".toList
    ⟨Node.mk ['+'] (some (Node.mk ['3'] none none))
      (some (Node.mk ['4'] none none))⟩ (Or.inl rfl)

/-- C6: one build-and-render pass is a normal form.  For any input `E`
that `from_infix` accepts (producing the tree `t`), building again from
the rendering `render_infix(t)` succeeds and renders to the same string,
i.e. `render_infix(build_from_infix(render_infix(build_from_infix(E))))
= render_infix(build_from_infix(E))`. -/
theorem c6_idempotent (E : List Char) (t : BinaryExpressionTree)
    (h : infixBuild E = .ok t) :
    (infixBuild t.root.infixRender).map (fun t2 => t2.root.infixRender) =
      Except.ok t.root.infixRender := by
  have hwf : WFNode t.root := wf_of_infixBuildFuel _ _ _ h
  have hb : infixBuild t.root.infixRender = .ok ⟨t.root⟩ := by
    unfold infixBuild
    have hmain := build_render t.root hwf [] [] (t.root.infixRender.length + 1)
      (by intro ch hch; cases hch) (by intro ch hch; cases hch) (by simp)
    simpa using hmain
  rw [hb]
  rfl

/-- C6 witness: the theorem applied to `E = "1 + 2"`, whose tree renders
as `"(1 + 2)"`; the second pass rebuilds it and renders the same string. -/
theorem c6_witness :
    (infixBuild ((BinaryExpressionTree.mk (Node.mk ['+']
        (some (Node.mk ['1'] none none))
        (some (Node.mk ['2'] none none)))).root.infixRender)).map
      (fun t2 => t2.root.infixRender) =
    Except.ok ((BinaryExpressionTree.mk (Node.mk ['+']
        (some (Node.mk ['1'] none none))
        (some (Node.mk ['2'] none none)))).root.infixRender) :=
  c6_idempotent "1 + 2".toList
    ⟨Node.mk ['+'] (some (Node.mk ['1'] none none))
      (some (Node.mk ['2'] none none))⟩ rfl
